import Mathlib

/-!
Verification of the AVL tree implementation in `src/DS/avl.c` (dslib).

The C code builds an AVL tree iteratively from an integer array
(`generate_avl`): for each value it walks down from the root recording the
path on an explicit stack, attaches a new leaf, and then unwinds the stack
calling `rebalance` on each recorded ancestor.  `rebalance` applies one of
the four rotations when the balance factor reaches plus or minus 2 and, in
that case, additionally pops the parent frame in order to reattach the
rotated subtree (or updates the head handle when the stack is empty).

The shallow embedding below represents the pointer structure as an
inductive tree whose nodes carry the cached `height` field (an `Int`, as in
C, where `calloc` zero-initialises it), and the path stack as a list of
zipper frames: a frame stores the direction taken, the visited node's
`data` and cached `height` at push time, and the sibling subtree.  Pointer
reattachment becomes plugging a subtree into a frame.
-/

namespace DS

/-- A C `avl_t` node: `{int data; int height; avl_p left; avl_p right;}`.
`nil` is the NULL pointer. -/
inductive Avl where
  | nil : Avl
  | node (left : Avl) (data : Int) (height : Int) (right : Avl) : Avl
  deriving DecidableEq, Repr

namespace Avl

/-- The contribution of a child to its parent's height computation in the C
helpers `height` and `BalanceFactor`: `0` for an absent child, otherwise
`1 + child->height` (the cached field, not a recursive recomputation). -/
def childH : Avl → Int
  | .nil => 0
  | .node _ _ h _ => 1 + h

/-- C `height(node)` (`avl.c:183`): `0` for NULL, otherwise the max of the
children's cached contributions.  Note a childless node has height `0`. -/
def height : Avl → Int
  | .nil => 0
  | .node l _ _ r => max (childH l) (childH r)

/-- C `BalanceFactor(node)` (`avl.c:263`): left cached height contribution
minus right cached height contribution, `0` for NULL. -/
def BalanceFactor : Avl → Int
  | .nil => 0
  | .node l _ _ r => childH l - childH r

/-- The height value that an assignment `x->height = height(x)` stores into
a node whose children are `l` and `r` (the stored field of `x` itself does
not enter the computation). -/
def hmax (l r : Avl) : Int := max (childH l) (childH r)

/-- C `RotateRight(node)` (`avl.c:199`): promotes `node->left`; the demoted
node's height is refreshed first, then the promoted node's height.  A call
with an absent left child dereferences NULL in C (undefined behavior); the
embedding returns the argument unchanged, such calls never occur in the
verified executions. -/
def RotateRight : Avl → Avl
  | .node (.node ll ld _ lr) d _ r =>
      let demoted := Avl.node lr d (hmax lr r) r
      Avl.node ll ld (hmax ll demoted) demoted
  | t => t

/-- C `RotateLeft(node)` (`avl.c:214`): mirror image of `RotateRight`. -/
def RotateLeft : Avl → Avl
  | .node l d _ (.node rl rd _ rr) =>
      let demoted := Avl.node l d (hmax l rl) rl
      Avl.node demoted rd (hmax demoted rr) rr
  | t => t

/-- C `RightRight(node)` (`avl.c:229`). -/
def RightRight (t : Avl) : Avl := RotateLeft t

/-- C `LeftLeft(node)` (`avl.c:237`). -/
def LeftLeft (t : Avl) : Avl := RotateRight t

/-- C `LeftRight(node)` (`avl.c:245`): `node->left = RotateLeft(node->left)`
followed by `RotateRight(node)`. -/
def LeftRight : Avl → Avl
  | .node l d h r => RotateRight (.node (RotateLeft l) d h r)
  | .nil => .nil

/-- C `RightLeft(node)` (`avl.c:254`): `node->right = RotateRight(node->right)`
followed by `RotateLeft(node)`. -/
def RightLeft : Avl → Avl
  | .node l d h r => RotateLeft (.node l d h (RotateRight r))
  | .nil => .nil

/-- The final `tmp->height = height(tmp)` of `rebalance` (`avl.c:177`) in
the branches where no rotation occurred: `tmp` is the subtree root. -/
def setTop : Avl → Avl
  | .node l d _ r => .node l d (hmax l r) r
  | .nil => .nil

/-- After a `-2` rotation (`RightRight`/`RightLeft`) the demoted node `tmp`
is the left child of the new subtree root, so `tmp->height = height(tmp)`
refreshes the left child's stored height. -/
def refreshL : Avl → Avl
  | .node (.node a x _ b) d h r => .node (.node a x (hmax a b) b) d h r
  | t => t

/-- After a `+2` rotation (`LeftLeft`/`LeftRight`) the demoted node `tmp`
is the right child of the new subtree root. -/
def refreshR : Avl → Avl
  | .node l d h (.node a x _ b) => .node l d h (.node a x (hmax a b) b)
  | t => t

/-- `tmp->right->data`, read by `rebalance` in the `-2` branch
(`avl.c:139`).  In C an absent right child would be a NULL dereference;
the branch is only reached with a present right child in valid runs. -/
def rightData : Avl → Int
  | .node _ _ _ (.node _ rd _ _) => rd
  | _ => 0

/-- `tmp->left->data`, read by `rebalance` in the `+2` branch (`avl.c:159`). -/
def leftData : Avl → Int
  | .node (.node _ ld _ _) _ _ _ => ld
  | _ => 0

/-- Inorder traversal of the data values. -/
def inorder : Avl → List Int
  | .nil => []
  | .node l d _ r => inorder l ++ d :: inorder r

/-- Number of nodes. -/
def size : Avl → Nat
  | .nil => 0
  | .node l _ _ r => size l + size r + 1

/-- One-based real height: `0` for NULL, `1 + max` of the children's
one-based real heights.  This ignores the cached `height` fields. -/
def h1 : Avl → Nat
  | .nil => 0
  | .node l _ _ r => 1 + max (h1 l) (h1 r)

/-- The recursively defined height of a present node in the C convention:
a childless node has height `0`, otherwise one plus the maximum over the
present children of their recursive heights (an absent child contributes
`0` to the maximum in place of `1 + height`). -/
def rheight : Avl → Nat
  | .nil => 0
  | .node l _ _ r => max (h1 l) (h1 r)

end Avl

open Avl

/-- Direction recorded on the path stack: C's `LEFT`/`RIGHT` (`avl.c:23`). -/
inductive Dir where
  | L : Dir
  | R : Dir
  deriving DecidableEq, Repr

/-- A path-stack entry (`nodedata`, `avl.c:30`) in zipper form: the C code
stores a pointer to the visited node plus the direction taken; here the
pointed-to node is split into its `data`, its cached `height` at push time,
and the child subtree that the descent did not enter. -/
structure Frame where
  dir : Dir
  data : Int
  h : Int
  sib : Avl
  deriving DecidableEq, Repr

/-- Modelled from the spec: the Path Stack component (`get_stack`, `push`,
`pop`, `destroy_stack`), code of this repository that is not under `src/`,
is per the spec a pure LIFO — `push` appends an entry in O(1), `pop`
removes and returns the most recently pushed entry or a not-present signal
when empty.  It is modelled as a Lean list of frames: `push` is `cons` and
`pop` takes the head. -/
abbrev Stack : Type := List Frame

/-- Reattachment through a frame: rebuilding the visited node with the
current subtree plugged in as the child the descent had entered
(`parent->left = ...` / `parent->right = ...`, or simply the unchanged
pointer when no rotation happened below). -/
def plugF (f : Frame) (s : Avl) : Avl :=
  match f.dir with
  | .L => .node s f.data f.h f.sib
  | .R => .node f.sib f.data f.h s

/-- Rebuilding the whole tree from a context of frames (innermost frame
first, as popped from the stack). -/
def plugCtx : Stack → Avl → Avl
  | [], s => s
  | f :: fs, s => plugCtx fs (plugF f s)

/-- C `rebalance(stack, head, tmp, data)` (`avl.c:126`).  `tmp` is the
popped ancestor rebuilt around the current subtree; the returned pair is
the remaining stack and the subtree that now stands at `tmp`'s position:
on a rotation the parent frame is popped and consumed for reattachment
(its own height field is left untouched), with an empty stack the rotated
subtree replaces the tree root (`*head = ...`). -/
def rebalance (v : Int) (st : Stack) (tmp : Avl) : Stack × Avl :=
  if BalanceFactor tmp = -2 then
    let rot := if rightData tmp ≤ v then refreshL (RightRight tmp)
               else refreshL (RightLeft tmp)
    match st with
    | p :: rest => (rest, plugF p rot)
    | [] => ([], rot)
  else if BalanceFactor tmp = 2 then
    let rot := if v < leftData tmp then refreshR (LeftLeft tmp)
               else refreshR (LeftRight tmp)
    match st with
    | p :: rest => (rest, plugF p rot)
    | [] => ([], rot)
  else
    (st, setTop tmp)

/-- The stack-unwinding loop of `generate_avl` (`avl.c:71`/`avl.c:97`):
pop each frame, rebuild the ancestor around the current subtree, and call
`rebalance` until the stack is empty.  The body of `rebalance` is inlined
here so that the recursion is structural on the stack (a rotation consumes
the additionally popped parent frame); the lemma `unwind_cons` below states
each loop step in terms of the standalone `rebalance` function. -/
def unwind (v : Int) : Stack → Avl → Avl
  | [], s => s
  | f :: fs, s =>
      let tmp := plugF f s
      if BalanceFactor tmp = -2 ∨ BalanceFactor tmp = 2 then
        let rot :=
          if BalanceFactor tmp = -2 then
            if rightData tmp ≤ v then refreshL (RightRight tmp)
            else refreshL (RightLeft tmp)
          else
            if v < leftData tmp then refreshR (LeftLeft tmp)
            else refreshR (LeftRight tmp)
        match fs with
        | [] => rot
        | g :: rest => unwind v rest (plugF g rot)
      else unwind v fs (setTop tmp)

/-- The descent of one insertion (`avl.c:62`): compare the value with the
current node, pushing a frame before each step down; on reaching an absent
child slot, attach a fresh zero-initialised leaf, refresh the attach node's
height (`root->height = height(root)`), and unwind the stack.  The `nil`
case is unreachable in `generate_avl` (the `while (root)` guard never sees
a NULL root because the tree is non-empty). -/
def insertGo (v : Int) : Avl → Stack → Avl
  | .node l d h r, st =>
    if v < d then
      match l with
      | .nil =>
          let leafN := Avl.node .nil v 0 .nil
          unwind v st (.node leafN d (hmax leafN r) r)
      | .node _ _ _ _ => insertGo v l (⟨Dir.L, d, h, r⟩ :: st)
    else
      match r with
      | .nil =>
          let leafN := Avl.node .nil v 0 .nil
          unwind v st (.node l d (hmax l leafN) leafN)
      | .node _ _ _ _ => insertGo v r (⟨Dir.R, d, h, l⟩ :: st)
  | .nil, _ => .nil

/-- One full iteration of the outer `for` loop of `generate_avl`:
insert `v` into the tree starting from an empty stack. -/
def insert (t : Avl) (v : Int) : Avl := insertGo v t []

/-- C `generate_avl(arr, len)` (`avl.c:38`).  `none` input models a NULL
`arr` pointer; the `int len` is the list length.  A NULL array or zero
length returns NULL (`avl.c:47`); otherwise the first value becomes the
root and the remaining values are inserted in order.  Allocation is
modelled separately in `generate_avlA`. -/
def generate_avl : Option (List Int) → Option Avl
  | none => none
  | some [] => none
  | some (x :: xs) => some (xs.foldl insert (Avl.node .nil x 0 .nil))

/-- C `delete_avl(root)` (`avl.c:279`): returns `-1` for a NULL root,
otherwise frees the subtree in postorder and returns the number of freed
nodes (children are only visited when present). -/
def delete_avl : Avl → Int
  | .nil => -1
  | .node l _ _ r =>
      (match l with | .nil => 0 | .node a b c d => delete_avl (.node a b c d)) +
      (match r with | .nil => 0 | .node a b c d => delete_avl (.node a b c d)) + 1

/-- C `print_avl(root, parent)` (`avl.c:302`): returns `some (-1)` for a
NULL root; otherwise it prints `root->data` together with `parent->data` —
an unconditional dereference of `parent`, modelled as `none` (undefined
behavior) when the parent is absent — and recurses into the present
children with `root` as their parent, summing the counts. -/
def print_avl : Avl → Avl → Option Int
  | .nil, _ => some (-1)
  | .node l d h r, parent =>
    match parent with
    | .nil => none
    | .node _ _ _ _ =>
        (match l with
          | .nil => some 0
          | .node a b c e => print_avl (.node a b c e) (.node l d h r)).bind
        (fun cl =>
          (match r with
            | .nil => some 0
            | .node a b c e => print_avl (.node a b c e) (.node l d h r)).map
          (fun cr => 1 + cl + cr))

/-- Plain binary-search-tree insertion with the same comparison and
tie-break as the descent of `generate_avl` (`v < data` goes left, ties go
right), ignoring heights and rebalancing.  Used as the specification of
the shape of the attach step at the level of inorder traversals. -/
def naiveIns (v : Int) : Avl → Avl
  | .nil => .node .nil v 0 .nil
  | .node l d h r =>
      if v < d then .node (naiveIns v l) d h r else .node l d h (naiveIns v r)

/-- One step of the allocation oracle: the head of the list tells whether
the next `calloc`/`malloc` call succeeds; an exhausted list means all
remaining allocations succeed. -/
def takeAlloc : List Bool → Bool × List Bool
  | [] => (true, [])
  | b :: bs => (b, bs)

/-- The descent of one insertion with the allocation oracle threaded
through: each push of a path entry consumes one `malloc` (`avl.c:84`,
unchecked — a NULL result is dereferenced by `n->node = root`), and the
attach step consumes one `calloc` for the new leaf (`avl.c:66`/`avl.c:93`,
unchecked — a NULL result is dereferenced by `root->left->data = arr[i]`).
`none` models the resulting NULL dereference (undefined behavior). -/
def insertGoA (v : Int) : Avl → Stack → List Bool → Option (Avl × List Bool)
  | .node l d h r, st, al =>
    if v < d then
      match l with
      | .nil =>
          let a := takeAlloc al
          if a.1 then
            let leafN := Avl.node .nil v 0 .nil
            some (unwind v st (.node leafN d (hmax leafN r) r), a.2)
          else none
      | .node _ _ _ _ =>
          let a := takeAlloc al
          if a.1 then insertGoA v l (⟨Dir.L, d, h, r⟩ :: st) a.2 else none
    else
      match r with
      | .nil =>
          let a := takeAlloc al
          if a.1 then
            let leafN := Avl.node .nil v 0 .nil
            some (unwind v st (.node l d (hmax l leafN) leafN), a.2)
          else none
      | .node _ _ _ _ =>
          let a := takeAlloc al
          if a.1 then insertGoA v r (⟨Dir.R, d, h, l⟩ :: st) a.2 else none
  | .nil, _, al => some (.nil, al)

/-- The outer insertion loop with the allocation oracle threaded through. -/
def buildA : List Int → Avl → List Bool → Option Avl
  | [], t, _ => some t
  | v :: vs, t, al =>
      match insertGoA v t [] al with
      | none => none
      | some p => buildA vs p.1 p.2

/-- The observable outcome of `generate_avl` when allocations may fail. -/
inductive GenRes where
  | invalid : GenRes
  | callocFail : GenRes
  | crash : GenRes
  | ok : Avl → GenRes
  deriving DecidableEq, Repr

/-- C `generate_avl` with an explicit allocation oracle.  `invalid` is the
NULL return after the `Invalid array.` log (`avl.c:47`); `callocFail` is
the NULL return after the `calloc failed.` log — taken only when the root
node's `calloc` fails, the single allocation the code checks (`avl.c:53`);
`crash` is a NULL dereference: the head handle's `calloc` (`avl.c:58`) and
every per-insertion allocation are unchecked. -/
def generate_avlA : Option (List Int) → List Bool → GenRes
  | none, _ => .invalid
  | some [], _ => .invalid
  | some (x :: xs), al =>
      let a1 := takeAlloc al
      if a1.1 then
        let a2 := takeAlloc a1.2
        if a2.1 then
          match buildA xs (Avl.node .nil x 0 .nil) a2.2 with
          | none => .crash
          | some t => .ok t
        else .crash
      else .callocFail

/-- A read of `arr[i]` as an operation on the array state: returns the
value and the (unchanged) array.  `generate_avl` contains no store to
`arr`, so its state-threaded rendering below is built from reads only. -/
def readArr (s : List Int) (i : Nat) : Int × List Int := (s.getD i 0, s)

/-- The `for` loop of `generate_avl` with the array threaded as state:
`rem` remaining iterations, `i` the current index. -/
def buildS : List Int → Nat → Nat → Avl → Avl × List Int
  | a, 0, _, t => (t, a)
  | a, rem+1, i, t =>
      let rd := readArr a i
      buildS rd.2 rem (i+1) (insert t rd.1)

/-- C `generate_avl` with the input array threaded as explicit state, to
express what the call does to the array's contents. -/
def generate_avlS (arr : List Int) (len : Nat) : Option Avl × List Int :=
  if len = 0 then (none, arr)
  else
    let rd := readArr arr 0
    let b := buildS rd.2 (len - 1) 1 (Avl.node .nil rd.1 0 .nil)
    (some b.1, b.2)

namespace Avl

/-- Every stored `height` field equals the recursively defined height of
its subtree (`rheight`), i.e. the cache is not stale. -/
def Honest : Avl → Prop
  | .nil => True
  | .node l _ h r => h = ((max (h1 l) (h1 r) : Nat) : Int) ∧ Honest l ∧ Honest r

instance instDecHonest : (t : Avl) → Decidable (Honest t)
  | .nil => isTrue trivial
  | .node l d h r =>
      letI := instDecHonest l
      letI := instDecHonest r
      decidable_of_iff (h = ((max (h1 l) (h1 r) : Nat) : Int) ∧ Honest l ∧ Honest r)
        Iff.rfl

/-- The real AVL balance condition: at every node the one-based real
heights of the children differ by at most one. -/
def BalancedR : Avl → Prop
  | .nil => True
  | .node l _ _ r => (h1 l ≤ h1 r + 1 ∧ h1 r ≤ h1 l + 1) ∧ BalancedR l ∧ BalancedR r

instance instDecBalancedR : (t : Avl) → Decidable (BalancedR t)
  | .nil => isTrue trivial
  | .node l d h r =>
      letI := instDecBalancedR l
      letI := instDecBalancedR r
      decidable_of_iff ((h1 l ≤ h1 r + 1 ∧ h1 r ≤ h1 l + 1) ∧ BalancedR l ∧ BalancedR r)
        Iff.rfl

/-- Every node's `BalanceFactor` (the C function, reading cached heights)
lies in `{-1, 0, 1}`. -/
def BFok : Avl → Prop
  | .nil => True
  | .node l d h r =>
      (BalanceFactor (.node l d h r) = -1 ∨ BalanceFactor (.node l d h r) = 0 ∨
        BalanceFactor (.node l d h r) = 1) ∧ BFok l ∧ BFok r

instance instDecBFok : (t : Avl) → Decidable (BFok t)
  | .nil => isTrue trivial
  | .node l d h r =>
      letI := instDecBFok l
      letI := instDecBFok r
      decidable_of_iff
        ((BalanceFactor (.node l d h r) = -1 ∨ BalanceFactor (.node l d h r) = 0 ∨
          BalanceFactor (.node l d h r) = 1) ∧ BFok l ∧ BFok r) Iff.rfl

/-- The ordering invariant claimed by the specification: at every node all
left-subtree values are strictly below the node's value and all
right-subtree values are greater or equal. -/
def StrictBST : Avl → Prop
  | .nil => True
  | .node l d _ r =>
      (∀ x ∈ inorder l, x < d) ∧ (∀ x ∈ inorder r, d ≤ x) ∧ StrictBST l ∧ StrictBST r

instance instDecStrictBST : (t : Avl) → Decidable (StrictBST t)
  | .nil => isTrue trivial
  | .node l d h r =>
      letI := instDecStrictBST l
      letI := instDecStrictBST r
      decidable_of_iff
        ((∀ x ∈ inorder l, x < d) ∧ (∀ x ∈ inorder r, d ≤ x) ∧ StrictBST l ∧ StrictBST r)
        Iff.rfl

/-- The ordering invariant the code actually maintains: at every node all
left-subtree values are less than or equal to the node's value and all
right-subtree values are greater or equal. -/
def WeakBST : Avl → Prop
  | .nil => True
  | .node l d _ r =>
      (∀ x ∈ inorder l, x ≤ d) ∧ (∀ x ∈ inorder r, d ≤ x) ∧ WeakBST l ∧ WeakBST r

instance instDecWeakBST : (t : Avl) → Decidable (WeakBST t)
  | .nil => isTrue trivial
  | .node l d h r =>
      letI := instDecWeakBST l
      letI := instDecWeakBST r
      decidable_of_iff
        ((∀ x ∈ inorder l, x ≤ d) ∧ (∀ x ∈ inorder r, d ≤ x) ∧ WeakBST l ∧ WeakBST r)
        Iff.rfl

/-- When an inserted value `v` has made a subtree grow by one level, the
child on `v`'s side of the root (per the ties-go-right comparison that the
descent used) is the strictly taller one. -/
def GrowSide (v : Int) : Avl → Prop
  | .nil => False
  | .node l d _ r => (v < d → h1 l = h1 r + 1) ∧ (d ≤ v → h1 r = h1 l + 1)

end Avl

/-- Validity of the path stack with respect to the inserted value `v` and
the one-based real height `o` that the subtree standing at the current
position had before the insertion: the sibling recorded in each frame is
an untouched, honest, balanced subtree; the frame's recorded height field
is the pre-insertion height of the visited node; the visited node was
balanced before the insertion; and the recorded direction agrees with the
comparison the descent performed at that node. -/
def chainOK (v : Int) : Stack → Nat → Prop
  | [], _ => True
  | f :: fs, o =>
      Avl.Honest f.sib ∧ Avl.BalancedR f.sib ∧
      f.h = ((max o (Avl.h1 f.sib) : Nat) : Int) ∧
      o ≤ Avl.h1 f.sib + 1 ∧ Avl.h1 f.sib ≤ o + 1 ∧
      (f.dir = Dir.L → v < f.data) ∧ (f.dir = Dir.R → f.data ≤ v) ∧
      chainOK v fs (1 + max o (Avl.h1 f.sib))

section InorderLemmas

open Avl

theorem rebalance_len (v : Int) (st : List Frame) (tmp : Avl) :
    ((rebalance v st tmp).1).length ≤ st.length := by
  unfold rebalance
  split
  · cases st <;> simp
  · split
    · cases st <;> simp
    · simp

theorem unwind_cons (v : Int) (f : Frame) (fs : List Frame) (s : Avl) :
    unwind v (f :: fs) s =
      unwind v (rebalance v fs (plugF f s)).1 (rebalance v fs (plugF f s)).2 := by
  by_cases hm : BalanceFactor (plugF f s) = -2
  · have hp : ¬ BalanceFactor (plugF f s) = 2 := by rw [hm]; decide
    simp only [unwind, rebalance, if_pos hm, if_pos (Or.inl hm)]
    cases fs with
    | nil => rw [unwind]
    | cons g rest => rfl
  · by_cases hp : BalanceFactor (plugF f s) = 2
    · have hor : BalanceFactor (plugF f s) = -2 ∨ BalanceFactor (plugF f s) = 2 :=
        Or.inr hp
      simp only [unwind, rebalance, if_pos hor, if_neg hm, if_pos hp]
      cases fs with
      | nil => rw [unwind]
      | cons g rest => rfl
    · have hor : ¬ (BalanceFactor (plugF f s) = -2 ∨ BalanceFactor (plugF f s) = 2) := by
        simp [hm, hp]
      simp only [unwind, rebalance, if_neg hor, if_neg hm, if_neg hp]

theorem inorder_RotateLeft (t : Avl) : inorder (RotateLeft t) = inorder t := by
  match t with
  | .nil => rfl
  | .node l d h .nil => rfl
  | .node l d h (.node rl rd rh rr) => simp [RotateLeft, inorder]

theorem inorder_RotateRight (t : Avl) : inorder (RotateRight t) = inorder t := by
  match t with
  | .nil => rfl
  | .node .nil d h r => rfl
  | .node (.node ll ld lh lr) d h r => simp [RotateRight, inorder]

theorem inorder_RightRight (t : Avl) : inorder (RightRight t) = inorder t :=
  inorder_RotateLeft t

theorem inorder_LeftLeft (t : Avl) : inorder (LeftLeft t) = inorder t :=
  inorder_RotateRight t

theorem inorder_LeftRight (t : Avl) : inorder (LeftRight t) = inorder t := by
  match t with
  | .nil => rfl
  | .node l d h r =>
      simp [LeftRight, inorder_RotateRight, inorder, inorder_RotateLeft]

theorem inorder_RightLeft (t : Avl) : inorder (RightLeft t) = inorder t := by
  match t with
  | .nil => rfl
  | .node l d h r =>
      simp [RightLeft, inorder_RotateLeft, inorder, inorder_RotateRight]

theorem inorder_refreshL (t : Avl) : inorder (refreshL t) = inorder t := by
  match t with
  | .nil => rfl
  | .node .nil d h r => rfl
  | .node (.node a x hx b) d h r => simp [refreshL, inorder]

theorem inorder_refreshR (t : Avl) : inorder (refreshR t) = inorder t := by
  match t with
  | .nil => rfl
  | .node l d h .nil => rfl
  | .node l d h (.node a x hx b) => simp [refreshR, inorder]

theorem inorder_setTop (t : Avl) : inorder (setTop t) = inorder t := by
  match t with
  | .nil => rfl
  | .node l d h r => simp [setTop, inorder]

theorem inorder_plugF_congr (f : Frame) {a b : Avl} (h : inorder a = inorder b) :
    inorder (plugF f a) = inorder (plugF f b) := by
  cases f with
  | mk dir d hh sib => cases dir <;> simp [plugF, inorder, h]

theorem inorder_plugCtx_congr :
    ∀ (fs : List Frame) {a b : Avl}, inorder a = inorder b →
      inorder (plugCtx fs a) = inorder (plugCtx fs b)
  | [], _, _, h => h
  | f :: fs, a, b, h => inorder_plugCtx_congr fs (inorder_plugF_congr f h)

theorem rebalance_inorder (v : Int) (st : List Frame) (tmp : Avl) :
    inorder (plugCtx (rebalance v st tmp).1 (rebalance v st tmp).2) =
      inorder (plugCtx st tmp) := by
  unfold rebalance
  have hneg : inorder (if rightData tmp ≤ v then refreshL (RightRight tmp)
      else refreshL (RightLeft tmp)) = inorder tmp := by
    split <;> simp [inorder_refreshL, inorder_RightRight, inorder_RightLeft]
  have hpos : inorder (if v < leftData tmp then refreshR (LeftLeft tmp)
      else refreshR (LeftRight tmp)) = inorder tmp := by
    split <;> simp [inorder_refreshR, inorder_LeftLeft, inorder_LeftRight]
  split
  · cases st with
    | nil => simpa [plugCtx] using hneg
    | cons p rest =>
        simpa [plugCtx] using inorder_plugCtx_congr rest (inorder_plugF_congr p hneg)
  · split
    · cases st with
      | nil => simpa [plugCtx] using hpos
      | cons p rest =>
          simpa [plugCtx] using inorder_plugCtx_congr rest (inorder_plugF_congr p hpos)
    · simpa [plugCtx] using inorder_plugCtx_congr st (inorder_setTop tmp)

theorem unwind_inorder_fuel (v : Int) :
    ∀ (n : Nat) (ctx : List Frame), ctx.length ≤ n → ∀ s : Avl,
      inorder (unwind v ctx s) = inorder (plugCtx ctx s) := by
  intro n
  induction n with
  | zero =>
      intro ctx h s
      cases ctx with
      | nil => rw [unwind]; rfl
      | cons f fs => simp at h
  | succ n IH =>
      intro ctx h s
      cases ctx with
      | nil => rw [unwind]; rfl
      | cons f fs =>
          rw [unwind_cons]
          rw [IH _ (le_trans (rebalance_len v fs (plugF f s))
            (Nat.le_of_succ_le_succ (by simpa using h)))]
          exact rebalance_inorder v fs (plugF f s)

theorem unwind_inorder (v : Int) (ctx : List Frame) (s : Avl) :
    inorder (unwind v ctx s) = inorder (plugCtx ctx s) :=
  unwind_inorder_fuel v ctx.length ctx le_rfl s

end InorderLemmas

open Avl

theorem insertGo_inorder (v : Int) :
    ∀ (t : Avl) (st : List Frame), t ≠ .nil →
      inorder (insertGo v t st) = inorder (plugCtx st (naiveIns v t)) := by
  intro t
  induction t with
  | nil => intro st h; exact absurd rfl h
  | node l d h r IHl IHr =>
      intro st _
      by_cases hv : v < d
      · cases l with
        | nil =>
            have hstep : insertGo v (.node .nil d h r) st =
                unwind v st (.node (Avl.node .nil v 0 .nil) d
                  (hmax (Avl.node .nil v 0 .nil) r) r) := by
              simp [insertGo, hv]
            rw [hstep, unwind_inorder]
            exact inorder_plugCtx_congr st (by simp [inorder, naiveIns, hv])
        | node la lb lc ld =>
            have hstep : insertGo v (.node (.node la lb lc ld) d h r) st =
                insertGo v (.node la lb lc ld) (⟨Dir.L, d, h, r⟩ :: st) := by
              simp [insertGo, hv]
            rw [hstep, IHl (⟨Dir.L, d, h, r⟩ :: st) (by simp)]
            simp only [plugCtx, plugF, naiveIns, if_pos hv]
      · cases r with
        | nil =>
            have hstep : insertGo v (.node l d h .nil) st =
                unwind v st (.node l d (hmax l (Avl.node .nil v 0 .nil))
                  (Avl.node .nil v 0 .nil)) := by
              simp [insertGo, hv]
            rw [hstep, unwind_inorder]
            exact inorder_plugCtx_congr st (by simp [inorder, naiveIns, hv])
        | node ra rb rc rd =>
            have hstep : insertGo v (.node l d h (.node ra rb rc rd)) st =
                insertGo v (.node ra rb rc rd) (⟨Dir.R, d, h, l⟩ :: st) := by
              simp [insertGo, hv]
            rw [hstep, IHr (⟨Dir.R, d, h, l⟩ :: st) (by simp)]
            simp only [plugCtx, plugF, naiveIns, if_neg hv]

theorem insert_inorder (t : Avl) (v : Int) (ht : t ≠ .nil) :
    inorder (insert t v) = inorder (naiveIns v t) :=
  insertGo_inorder v t [] ht

theorem naiveIns_ne_nil (v : Int) (t : Avl) : naiveIns v t ≠ .nil := by
  cases t with
  | nil => simp [naiveIns]
  | node l d h r => simp only [naiveIns]; split <;> simp

theorem inorder_eq_nil_iff (t : Avl) : inorder t = [] ↔ t = .nil := by
  cases t <;> simp [inorder]

theorem naiveIns_perm (v : Int) :
    ∀ t : Avl, List.Perm (inorder (naiveIns v t)) (v :: inorder t) := by
  intro t
  induction t with
  | nil => simp [naiveIns, inorder]
  | node l d h r IHl IHr =>
      simp only [naiveIns]
      split
      · simpa [inorder] using IHl.append_right (d :: inorder r)
      · have hstep : List.Perm (inorder l ++ d :: inorder (naiveIns v r))
            (inorder l ++ d :: (v :: inorder r)) :=
          List.Perm.append_left _ (List.Perm.cons d IHr)
        have hmid : List.Perm ((inorder l ++ [d]) ++ v :: inorder r)
            (v :: ((inorder l ++ [d]) ++ inorder r)) := List.perm_middle
        simp only [List.append_assoc, List.singleton_append] at hmid
        simpa [inorder] using hstep.trans hmid

theorem insert_ne_nil (t : Avl) (v : Int) (ht : t ≠ .nil) : insert t v ≠ .nil := by
  intro hcon
  have h1 : inorder (insert t v) = inorder (naiveIns v t) := insert_inorder t v ht
  rw [hcon] at h1
  exact naiveIns_ne_nil v t ((inorder_eq_nil_iff _).mp h1.symm)

theorem sorted_append_iff {l₁ l₂ : List Int} :
    (l₁ ++ l₂).Sorted (· ≤ ·) ↔
      l₁.Sorted (· ≤ ·) ∧ l₂.Sorted (· ≤ ·) ∧ ∀ a ∈ l₁, ∀ b ∈ l₂, a ≤ b :=
  List.pairwise_append

theorem naiveIns_sorted (v : Int) :
    ∀ t : Avl, (inorder t).Sorted (· ≤ ·) → (inorder (naiveIns v t)).Sorted (· ≤ ·) := by
  intro t
  induction t with
  | nil => intro _; simp [naiveIns, inorder]
  | node l d h r IHl IHr =>
      intro hs
      simp only [inorder] at hs
      rw [sorted_append_iff] at hs
      obtain ⟨hsl, hsr', hcross⟩ := hs
      rw [List.sorted_cons] at hsr'
      obtain ⟨hdr, hsr⟩ := hsr'
      simp only [naiveIns]
      split
      case isTrue hv =>
        simp only [inorder]
        rw [sorted_append_iff]
        refine ⟨IHl hsl, List.sorted_cons.mpr ⟨hdr, hsr⟩, ?_⟩
        intro a ha b hb
        have ha' : a = v ∨ a ∈ inorder l := by
          simpa using (naiveIns_perm v l).mem_iff.mp ha
        rcases ha' with rfl | ha'
        · rcases List.mem_cons.mp hb with rfl | hb'
          · exact le_of_lt hv
          · exact le_trans (le_of_lt hv) (hdr b hb')
        · exact hcross a ha' b hb
      case isFalse hv =>
        have hdv : d ≤ v := not_lt.mp hv
        simp only [inorder]
        rw [sorted_append_iff]
        refine ⟨hsl, ?_, ?_⟩
        · rw [List.sorted_cons]
          refine ⟨?_, IHr hsr⟩
          intro b hb
          have hb' : b = v ∨ b ∈ inorder r := by
            simpa using (naiveIns_perm v r).mem_iff.mp hb
          rcases hb' with rfl | hb'
          · exact hdv
          · exact hdr b hb'
        · intro a ha b hb
          rcases List.mem_cons.mp hb with rfl | hb'
          · exact hcross a ha b (List.mem_cons_self b _)
          · have hb'' : b = v ∨ b ∈ inorder r := by
              simpa using (naiveIns_perm v r).mem_iff.mp hb'
            rcases hb'' with rfl | hb''
            · exact le_trans (hcross a ha d (List.mem_cons_self d _)) hdv
            · exact hcross a ha b (List.mem_cons.mpr (Or.inr hb''))

theorem WeakBST_iff_sorted : ∀ t : Avl, WeakBST t ↔ (inorder t).Sorted (· ≤ ·) := by
  intro t
  induction t with
  | nil => simp [WeakBST, inorder]
  | node l d h r IHl IHr =>
      simp only [WeakBST, inorder]
      rw [sorted_append_iff, List.sorted_cons]
      constructor
      · rintro ⟨hld, hrd, hwl, hwr⟩
        refine ⟨IHl.mp hwl, ⟨hrd, IHr.mp hwr⟩, ?_⟩
        intro a ha b hb
        rcases List.mem_cons.mp hb with rfl | hb'
        · exact hld a ha
        · exact le_trans (hld a ha) (hrd b hb')
      · rintro ⟨hsl, ⟨hdr, hsr⟩, hcross⟩
        exact ⟨fun a ha => hcross a ha d (List.mem_cons_self d _), hdr,
          IHl.mpr hsl, IHr.mpr hsr⟩

theorem foldl_insert_ok :
    ∀ (xs : List Int) (t : Avl), t ≠ .nil → (inorder t).Sorted (· ≤ ·) →
      xs.foldl insert t ≠ .nil ∧ (inorder (xs.foldl insert t)).Sorted (· ≤ ·) ∧
        List.Perm (inorder (xs.foldl insert t)) (inorder t ++ xs) := by
  intro xs
  induction xs with
  | nil => intro t ht hs; exact ⟨ht, hs, by simp⟩
  | cons x xs IH =>
      intro t ht hs
      have hins : inorder (insert t x) = inorder (naiveIns x t) := insert_inorder t x ht
      have hne : insert t x ≠ .nil := insert_ne_nil t x ht
      have hsorted : (inorder (insert t x)).Sorted (· ≤ ·) := by
        rw [hins]; exact naiveIns_sorted x t hs
      have hperm : List.Perm (inorder (insert t x)) (x :: inorder t) := by
        rw [hins]; exact naiveIns_perm x t
      obtain ⟨hA, hB, hC⟩ := IH (insert t x) hne hsorted
      refine ⟨by simpa using hA, by simpa using hB, ?_⟩
      have hstep : List.Perm (inorder ((x :: xs).foldl insert t)) ((x :: inorder t) ++ xs) := by
        simpa using hC.trans (hperm.append_right xs)
      refine hstep.trans ?_
      have hmid : List.Perm (inorder t ++ x :: xs) (x :: (inorder t ++ xs)) :=
        List.perm_middle
      simpa using hmid.symm

theorem generate_ok (x : Int) (xs : List Int) :
    ∃ t : Avl, generate_avl (some (x :: xs)) = some t ∧ t ≠ .nil ∧
      (inorder t).Sorted (· ≤ ·) ∧ List.Perm (inorder t) (x :: xs) := by
  have hbase : (Avl.node .nil x 0 .nil : Avl) ≠ .nil := by simp
  have hsorted : (inorder (Avl.node .nil x 0 .nil)).Sorted (· ≤ ·) := by
    simp [inorder]
  obtain ⟨hA, hB, hC⟩ := foldl_insert_ok xs (Avl.node .nil x 0 .nil) hbase hsorted
  exact ⟨xs.foldl insert (Avl.node .nil x 0 .nil), rfl, hA, hB, by simpa [inorder] using hC⟩

section HeightBalance

open Avl

theorem childH_eq_h1 {t : Avl} (ht : Honest t) : childH t = (h1 t : Int) := by
  cases t with
  | nil => rfl
  | node l d h r =>
      obtain ⟨hh, _, _⟩ := ht
      simp [childH, h1, hh]

theorem h1_eq_zero_iff (t : Avl) : h1 t = 0 ↔ t = .nil := by
  cases t <;> simp [h1]

theorem growSide_ne_nil {v : Int} {t : Avl} (h : GrowSide v t) : t ≠ .nil := by
  cases t with
  | nil => exact absurd h (by simp [GrowSide])
  | node l d hh r => simp

theorem LL_ok (d sd sh hh : Int) (sl sr sib : Avl) (m : Nat)
    (Hsl : Honest sl) (Hsr : Honest sr) (Hsib : Honest sib)
    (Bsl : BalancedR sl) (Bsr : BalancedR sr) (Bsib : BalancedR sib)
    (e1 : h1 sl = m + 1) (e2 : h1 sr = m) (e3 : h1 sib = m) :
    Honest (refreshR (LeftLeft (Avl.node (Avl.node sl sd sh sr) d hh sib))) ∧
      BalancedR (refreshR (LeftLeft (Avl.node (Avl.node sl sd sh sr) d hh sib))) ∧
      h1 (refreshR (LeftLeft (Avl.node (Avl.node sl sd sh sr) d hh sib))) = m + 2 := by
  have csl : childH sl = ((m + 1 : Nat) : Int) := by rw [childH_eq_h1 Hsl, e1]
  have csr : childH sr = ((m : Nat) : Int) := by rw [childH_eq_h1 Hsr, e2]
  have csib : childH sib = ((m : Nat) : Int) := by rw [childH_eq_h1 Hsib, e3]
  simp only [LeftLeft, RotateRight, refreshR, hmax, childH.eq_2, csl, csr, csib]
  refine ⟨⟨?_, Hsl, ⟨?_, Hsr, Hsib⟩⟩, ⟨⟨?_, ?_⟩, Bsl, ⟨⟨?_, ?_⟩, Bsr, Bsib⟩⟩, ?_⟩ <;>
    simp only [h1, e1, e2, e3] <;> push_cast <;> omega

theorem RR_ok (d sd sh hh : Int) (sl sr sib : Avl) (m : Nat)
    (Hsl : Honest sl) (Hsr : Honest sr) (Hsib : Honest sib)
    (Bsl : BalancedR sl) (Bsr : BalancedR sr) (Bsib : BalancedR sib)
    (e1 : h1 sr = m + 1) (e2 : h1 sl = m) (e3 : h1 sib = m) :
    Honest (refreshL (RightRight (Avl.node sib d hh (Avl.node sl sd sh sr)))) ∧
      BalancedR (refreshL (RightRight (Avl.node sib d hh (Avl.node sl sd sh sr)))) ∧
      h1 (refreshL (RightRight (Avl.node sib d hh (Avl.node sl sd sh sr)))) = m + 2 := by
  have csl : childH sl = ((m : Nat) : Int) := by rw [childH_eq_h1 Hsl, e2]
  have csr : childH sr = ((m + 1 : Nat) : Int) := by rw [childH_eq_h1 Hsr, e1]
  have csib : childH sib = ((m : Nat) : Int) := by rw [childH_eq_h1 Hsib, e3]
  simp only [RightRight, RotateLeft, refreshL, hmax, childH.eq_2, csl, csr, csib]
  refine ⟨⟨?_, ⟨?_, Hsib, Hsl⟩, Hsr⟩, ⟨⟨?_, ?_⟩, ⟨⟨?_, ?_⟩, Bsib, Bsl⟩, Bsr⟩, ?_⟩ <;>
    simp only [h1, e1, e2, e3] <;> push_cast <;> omega

theorem LR_ok (d sd srd sh srh hh : Int) (sl srl srr sib : Avl) (p : Nat)
    (Hsl : Honest sl) (Hsrl : Honest srl) (Hsrr : Honest srr) (Hsib : Honest sib)
    (Bsl : BalancedR sl) (Bsrl : BalancedR srl) (Bsrr : BalancedR srr) (Bsib : BalancedR sib)
    (e1 : h1 sl = p) (e3 : h1 sib = p)
    (e4 : max (h1 srl) (h1 srr) = p)
    (e5 : h1 srl ≤ h1 srr + 1) (e6 : h1 srr ≤ h1 srl + 1) :
    Honest (refreshR (LeftRight
        (Avl.node (Avl.node sl sd sh (Avl.node srl srd srh srr)) d hh sib))) ∧
      BalancedR (refreshR (LeftRight
        (Avl.node (Avl.node sl sd sh (Avl.node srl srd srh srr)) d hh sib))) ∧
      h1 (refreshR (LeftRight
        (Avl.node (Avl.node sl sd sh (Avl.node srl srd srh srr)) d hh sib))) = p + 2 := by
  have csl : childH sl = ((p : Nat) : Int) := by rw [childH_eq_h1 Hsl, e1]
  have csrl : childH srl = ((h1 srl : Nat) : Int) := childH_eq_h1 Hsrl
  have csrr : childH srr = ((h1 srr : Nat) : Int) := childH_eq_h1 Hsrr
  have csib : childH sib = ((p : Nat) : Int) := by rw [childH_eq_h1 Hsib, e3]
  simp only [LeftRight, RotateLeft, RotateRight, refreshR, hmax, childH.eq_2,
    csl, csrl, csrr, csib]
  refine ⟨⟨?_, ⟨?_, Hsl, Hsrl⟩, ⟨?_, Hsrr, Hsib⟩⟩,
    ⟨⟨?_, ?_⟩, ⟨⟨?_, ?_⟩, Bsl, Bsrl⟩, ⟨⟨?_, ?_⟩, Bsrr, Bsib⟩⟩, ?_⟩ <;>
    simp only [h1, e1, e3] <;> push_cast <;> omega

theorem RL_ok (d sd sld sh slh hh : Int) (sll slr sr sib : Avl) (p : Nat)
    (Hsll : Honest sll) (Hslr : Honest slr) (Hsr : Honest sr) (Hsib : Honest sib)
    (Bsll : BalancedR sll) (Bslr : BalancedR slr) (Bsr : BalancedR sr) (Bsib : BalancedR sib)
    (e1 : h1 sr = p) (e3 : h1 sib = p)
    (e4 : max (h1 sll) (h1 slr) = p)
    (e5 : h1 sll ≤ h1 slr + 1) (e6 : h1 slr ≤ h1 sll + 1) :
    Honest (refreshL (RightLeft
        (Avl.node sib d hh (Avl.node (Avl.node sll sld slh slr) sd sh sr)))) ∧
      BalancedR (refreshL (RightLeft
        (Avl.node sib d hh (Avl.node (Avl.node sll sld slh slr) sd sh sr)))) ∧
      h1 (refreshL (RightLeft
        (Avl.node sib d hh (Avl.node (Avl.node sll sld slh slr) sd sh sr)))) = p + 2 := by
  have csll : childH sll = ((h1 sll : Nat) : Int) := childH_eq_h1 Hsll
  have cslr : childH slr = ((h1 slr : Nat) : Int) := childH_eq_h1 Hslr
  have csr : childH sr = ((p : Nat) : Int) := by rw [childH_eq_h1 Hsr, e1]
  have csib : childH sib = ((p : Nat) : Int) := by rw [childH_eq_h1 Hsib, e3]
  simp only [RightLeft, RotateRight, RotateLeft, refreshL, hmax, childH.eq_2,
    csll, cslr, csr, csib]
  refine ⟨⟨?_, ⟨?_, Hsib, Hsll⟩, ⟨?_, Hslr, Hsr⟩⟩,
    ⟨⟨?_, ?_⟩, ⟨⟨?_, ?_⟩, Bsib, Bsll⟩, ⟨⟨?_, ?_⟩, Bslr, Bsr⟩⟩, ?_⟩ <;>
    simp only [h1, e1, e3] <;> push_cast <;> omega

set_option maxHeartbeats 1000000 in
theorem unwind_hb_fuel (v : Int) :
    ∀ (n : Nat) (ctx : List Frame), ctx.length ≤ n → ∀ (o : Nat) (s : Avl),
      chainOK v ctx o → Honest s → BalancedR s →
      (h1 s = o ∨ (h1 s = o + 1 ∧ GrowSide v s)) →
      Honest (unwind v ctx s) ∧ BalancedR (unwind v ctx s) := by
  intro n
  induction n with
  | zero =>
      intro ctx hlen o s hc hh hb hg
      cases ctx with
      | nil => rw [unwind]; exact ⟨hh, hb⟩
      | cons f fs => simp at hlen
  | succ n IH =>
      intro ctx hlen o s hc hh hb hg
      cases ctx with
      | nil => rw [unwind]; exact ⟨hh, hb⟩
      | cons f fs =>
          rw [unwind_cons]
          obtain ⟨dir, fd, fh, sib⟩ := f
          obtain ⟨Hsib, Bsib, hfh, hpre1, hpre2, hdirL, hdirR, hrest⟩ := hc
          simp only at Hsib Bsib hfh hpre1 hpre2 hdirL hdirR hrest
          have hlen' : fs.length ≤ n := by
            simp only [List.length_cons] at hlen; omega
          cases dir with
          | L =>
              simp only [plugF]
              have hbfval : BalanceFactor (Avl.node s fd fh sib) =
                  (h1 s : Int) - (h1 sib : Int) := by
                simp [BalanceFactor, childH_eq_h1 hh, childH_eq_h1 Hsib]
              have hvfd : v < fd := hdirL rfl
              rcases hg with hgno | ⟨hgyes, hgside⟩
              · -- no growth below: balance factor in range, no rotation
                have hne1 : ¬ BalanceFactor (Avl.node s fd fh sib) = -2 := by
                  rw [hbfval]; omega
                have hne2 : ¬ BalanceFactor (Avl.node s fd fh sib) = 2 := by
                  rw [hbfval]; omega
                have hreb : rebalance v fs (Avl.node s fd fh sib) =
                    (fs, Avl.node s fd (hmax s sib) sib) := by
                  simp only [rebalance, if_neg hne1, if_neg hne2, setTop]
                rw [hreb]
                refine IH fs hlen' (1 + max o (h1 sib)) _ hrest
                  ⟨?_, hh, Hsib⟩ ⟨⟨?_, ?_⟩, hb, Bsib⟩ (Or.inl ?_)
                · rw [hmax, childH_eq_h1 hh, childH_eq_h1 Hsib, hgno]
                  push_cast; omega
                · omega
                · omega
                · simp only [h1]; omega
              · -- the subtree grew by one level
                have hsnil : s ≠ .nil := growSide_ne_nil hgside
                have hbcase : h1 sib = o + 1 ∨ h1 sib = o ∨ h1 sib + 1 = o := by
                  omega
                rcases hbcase with hbv | hbv | hbv
                · -- growth absorbed: balance factor 0, no rotation, no growth up
                  have hne1 : ¬ BalanceFactor (Avl.node s fd fh sib) = -2 := by
                    rw [hbfval]; omega
                  have hne2 : ¬ BalanceFactor (Avl.node s fd fh sib) = 2 := by
                    rw [hbfval]; omega
                  have hreb : rebalance v fs (Avl.node s fd fh sib) =
                      (fs, Avl.node s fd (hmax s sib) sib) := by
                    simp only [rebalance, if_neg hne1, if_neg hne2, setTop]
                  rw [hreb]
                  refine IH fs hlen' (1 + max o (h1 sib)) _ hrest
                    ⟨?_, hh, Hsib⟩ ⟨⟨?_, ?_⟩, hb, Bsib⟩ (Or.inl ?_)
                  · rw [hmax, childH_eq_h1 hh, childH_eq_h1 Hsib, hgyes, hbv]
                    push_cast; omega
                  · omega
                  · omega
                  · simp only [h1]; omega
                · -- balance factor 1: no rotation, growth continues upward
                  have hne1 : ¬ BalanceFactor (Avl.node s fd fh sib) = -2 := by
                    rw [hbfval]; omega
                  have hne2 : ¬ BalanceFactor (Avl.node s fd fh sib) = 2 := by
                    rw [hbfval]; omega
                  have hreb : rebalance v fs (Avl.node s fd fh sib) =
                      (fs, Avl.node s fd (hmax s sib) sib) := by
                    simp only [rebalance, if_neg hne1, if_neg hne2, setTop]
                  rw [hreb]
                  refine IH fs hlen' (1 + max o (h1 sib)) _ hrest
                    ⟨?_, hh, Hsib⟩ ⟨⟨?_, ?_⟩, hb, Bsib⟩ (Or.inr ⟨?_, ?_, ?_⟩)
                  · rw [hmax, childH_eq_h1 hh, childH_eq_h1 Hsib, hgyes, hbv]
                    push_cast; omega
                  · omega
                  · omega
                  · simp only [h1]; omega
                  · intro _; omega
                  · intro hle; exact absurd hvfd (not_lt.mpr hle)
                · -- balance factor 2: rotation at this node
                  have heq2 : BalanceFactor (Avl.node s fd fh sib) = 2 := by
                    rw [hbfval]; omega
                  have hne1 : ¬ BalanceFactor (Avl.node s fd fh sib) = -2 := by
                    rw [hbfval]; omega
                  cases s with
                  | nil => exact absurd rfl hsnil
                  | node sl sd sh sr =>
                    obtain ⟨hsh, Hsl, Hsr⟩ := hh
                    obtain ⟨⟨hbs1, hbs2⟩, Bsl, Bsr⟩ := hb
                    obtain ⟨g1, g2⟩ := hgside
                    have hmaxo : max (h1 sl) (h1 sr) = o := by
                      have hexp : h1 (Avl.node sl sd sh sr) =
                        1 + max (h1 sl) (h1 sr) := rfl
                      omega
                    have ho' : 1 + max o (h1 sib) = o + 1 := by omega
                    rw [ho'] at hrest
                    have hldata : leftData
                        (Avl.node (Avl.node sl sd sh sr) fd fh sib) = sd := rfl
                    by_cases hvd : v < sd
                    · -- outer (left-left) case
                      have hsl : h1 sl = h1 sr + 1 := g1 hvd
                      have hrot := LL_ok fd sd sh fh sl sr sib (h1 sr)
                        Hsl Hsr Hsib Bsl Bsr Bsib hsl rfl (by omega)
                      have hh1rot : h1 (refreshR (LeftLeft
                          (Avl.node (Avl.node sl sd sh sr) fd fh sib))) = o + 1 := by
                        rw [hrot.2.2]; omega
                      cases fs with
                      | nil =>
                          have hreb : rebalance v []
                              (Avl.node (Avl.node sl sd sh sr) fd fh sib) =
                              ([], refreshR (LeftLeft
                                (Avl.node (Avl.node sl sd sh sr) fd fh sib))) := by
                            simp only [rebalance, if_neg hne1, if_pos heq2, hldata,
                              if_pos hvd]
                          rw [hreb, unwind]
                          exact ⟨hrot.1, hrot.2.1⟩
                      | cons g rest =>
                          obtain ⟨gdir, gd, gh, gsib⟩ := g
                          obtain ⟨Hgsib, Bgsib, hgh, hgpre1, hgpre2, hgdL, hgdR,
                            hrest2⟩ := hrest
                          simp only at Hgsib Bgsib hgh hgpre1 hgpre2 hrest2
                          have hlen2 : rest.length ≤ n := by
                            simp only [List.length_cons] at hlen; omega
                          have hreb : rebalance v (⟨gdir, gd, gh, gsib⟩ :: rest)
                              (Avl.node (Avl.node sl sd sh sr) fd fh sib) =
                              (rest, plugF ⟨gdir, gd, gh, gsib⟩ (refreshR (LeftLeft
                                (Avl.node (Avl.node sl sd sh sr) fd fh sib)))) := by
                            simp only [rebalance, if_neg hne1, if_pos heq2, hldata,
                              if_pos hvd]
                          rw [hreb]
                          cases gdir with
                          | L =>
                              simp only [plugF]
                              refine IH rest hlen2 (1 + max (o + 1) (h1 gsib)) _
                                hrest2 ⟨?_, hrot.1, Hgsib⟩
                                ⟨⟨?_, ?_⟩, hrot.2.1, Bgsib⟩ (Or.inl ?_)
                              · rw [hh1rot]; exact hgh
                              · omega
                              · omega
                              · simp only [h1]; omega
                          | R =>
                              simp only [plugF]
                              refine IH rest hlen2 (1 + max (o + 1) (h1 gsib)) _
                                hrest2 ⟨?_, Hgsib, hrot.1⟩
                                ⟨⟨?_, ?_⟩, Bgsib, hrot.2.1⟩ (Or.inl ?_)
                              · rw [hh1rot, hgh]; push_cast; omega
                              · omega
                              · omega
                              · simp only [h1]; omega
                    · -- inner (left-right) case
                      have hdsv : sd ≤ v := not_lt.mp hvd
                      have hsr : h1 sr = h1 sl + 1 := g2 hdsv
                      have hsrnil : sr ≠ .nil := by
                        intro hcon
                        rw [hcon] at hsr
                        simp [h1] at hsr
                      cases sr with
                      | nil => exact absurd rfl hsrnil
                      | node srl srd srh srr =>
                        obtain ⟨hsrh, Hsrl, Hsrr⟩ := Hsr
                        obtain ⟨⟨hbsr1, hbsr2⟩, Bsrl, Bsrr⟩ := Bsr
                        have hinner : max (h1 srl) (h1 srr) = h1 sl := by
                          have hexp : h1 (Avl.node srl srd srh srr) =
                            1 + max (h1 srl) (h1 srr) := rfl
                          omega
                        have hrot := LR_ok fd sd srd sh srh fh sl srl srr sib (h1 sl)
                          Hsl Hsrl Hsrr Hsib Bsl Bsrl Bsrr Bsib rfl (by omega) hinner
                          hbsr1 hbsr2
                        have hh1rot : h1 (refreshR (LeftRight
                            (Avl.node (Avl.node sl sd sh (Avl.node srl srd srh srr))
                              fd fh sib))) = o + 1 := by
                          rw [hrot.2.2]
                          have hexp : h1 (Avl.node srl srd srh srr) =
                            1 + max (h1 srl) (h1 srr) := rfl
                          omega
                        have hldata2 : leftData
                            (Avl.node (Avl.node sl sd sh (Avl.node srl srd srh srr))
                              fd fh sib) = sd := rfl
                        cases fs with
                        | nil =>
                            have hreb : rebalance v []
                                (Avl.node (Avl.node sl sd sh
                                  (Avl.node srl srd srh srr)) fd fh sib) =
                                ([], refreshR (LeftRight
                                  (Avl.node (Avl.node sl sd sh
                                    (Avl.node srl srd srh srr)) fd fh sib))) := by
                              simp only [rebalance, if_neg hne1, if_pos heq2,
                                hldata2, if_neg hvd]
                            rw [hreb, unwind]
                            exact ⟨hrot.1, hrot.2.1⟩
                        | cons g rest =>
                            obtain ⟨gdir, gd, gh, gsib⟩ := g
                            obtain ⟨Hgsib, Bgsib, hgh, hgpre1, hgpre2, hgdL, hgdR,
                              hrest2⟩ := hrest
                            simp only at Hgsib Bgsib hgh hgpre1 hgpre2 hrest2
                            have hlen2 : rest.length ≤ n := by
                              simp only [List.length_cons] at hlen; omega
                            have hreb : rebalance v (⟨gdir, gd, gh, gsib⟩ :: rest)
                                (Avl.node (Avl.node sl sd sh
                                  (Avl.node srl srd srh srr)) fd fh sib) =
                                (rest, plugF ⟨gdir, gd, gh, gsib⟩ (refreshR (LeftRight
                                  (Avl.node (Avl.node sl sd sh
                                    (Avl.node srl srd srh srr)) fd fh sib)))) := by
                              simp only [rebalance, if_neg hne1, if_pos heq2,
                                hldata2, if_neg hvd]
                            rw [hreb]
                            cases gdir with
                            | L =>
                                simp only [plugF]
                                refine IH rest hlen2 (1 + max (o + 1) (h1 gsib)) _
                                  hrest2 ⟨?_, hrot.1, Hgsib⟩
                                  ⟨⟨?_, ?_⟩, hrot.2.1, Bgsib⟩ (Or.inl ?_)
                                · rw [hh1rot]; exact hgh
                                · omega
                                · omega
                                · simp only [h1]; omega
                            | R =>
                                simp only [plugF]
                                refine IH rest hlen2 (1 + max (o + 1) (h1 gsib)) _
                                  hrest2 ⟨?_, Hgsib, hrot.1⟩
                                  ⟨⟨?_, ?_⟩, Bgsib, hrot.2.1⟩ (Or.inl ?_)
                                · rw [hh1rot, hgh]; push_cast; omega
                                · omega
                                · omega
                                · simp only [h1]; omega
          | R =>
              simp only [plugF]
              have hbfval : BalanceFactor (Avl.node sib fd fh s) =
                  (h1 sib : Int) - (h1 s : Int) := by
                simp [BalanceFactor, childH_eq_h1 hh, childH_eq_h1 Hsib]
              have hfdv : fd ≤ v := hdirR rfl
              rcases hg with hgno | ⟨hgyes, hgside⟩
              · have hne1 : ¬ BalanceFactor (Avl.node sib fd fh s) = -2 := by
                  rw [hbfval]; omega
                have hne2 : ¬ BalanceFactor (Avl.node sib fd fh s) = 2 := by
                  rw [hbfval]; omega
                have hreb : rebalance v fs (Avl.node sib fd fh s) =
                    (fs, Avl.node sib fd (hmax sib s) s) := by
                  simp only [rebalance, if_neg hne1, if_neg hne2, setTop]
                rw [hreb]
                refine IH fs hlen' (1 + max o (h1 sib)) _ hrest
                  ⟨?_, Hsib, hh⟩ ⟨⟨?_, ?_⟩, Bsib, hb⟩ (Or.inl ?_)
                · rw [hmax, childH_eq_h1 hh, childH_eq_h1 Hsib, hgno]
                  push_cast; omega
                · omega
                · omega
                · simp only [h1]; omega
              · have hsnil : s ≠ .nil := growSide_ne_nil hgside
                have hbcase : h1 sib = o + 1 ∨ h1 sib = o ∨ h1 sib + 1 = o := by
                  omega
                rcases hbcase with hbv | hbv | hbv
                · have hne1 : ¬ BalanceFactor (Avl.node sib fd fh s) = -2 := by
                    rw [hbfval]; omega
                  have hne2 : ¬ BalanceFactor (Avl.node sib fd fh s) = 2 := by
                    rw [hbfval]; omega
                  have hreb : rebalance v fs (Avl.node sib fd fh s) =
                      (fs, Avl.node sib fd (hmax sib s) s) := by
                    simp only [rebalance, if_neg hne1, if_neg hne2, setTop]
                  rw [hreb]
                  refine IH fs hlen' (1 + max o (h1 sib)) _ hrest
                    ⟨?_, Hsib, hh⟩ ⟨⟨?_, ?_⟩, Bsib, hb⟩ (Or.inl ?_)
                  · rw [hmax, childH_eq_h1 hh, childH_eq_h1 Hsib, hgyes, hbv]
                    push_cast; omega
                  · omega
                  · omega
                  · simp only [h1]; omega
                · have hne1 : ¬ BalanceFactor (Avl.node sib fd fh s) = -2 := by
                    rw [hbfval]; omega
                  have hne2 : ¬ BalanceFactor (Avl.node sib fd fh s) = 2 := by
                    rw [hbfval]; omega
                  have hreb : rebalance v fs (Avl.node sib fd fh s) =
                      (fs, Avl.node sib fd (hmax sib s) s) := by
                    simp only [rebalance, if_neg hne1, if_neg hne2, setTop]
                  rw [hreb]
                  refine IH fs hlen' (1 + max o (h1 sib)) _ hrest
                    ⟨?_, Hsib, hh⟩ ⟨⟨?_, ?_⟩, Bsib, hb⟩ (Or.inr ⟨?_, ?_, ?_⟩)
                  · rw [hmax, childH_eq_h1 hh, childH_eq_h1 Hsib, hgyes, hbv]
                    push_cast; omega
                  · omega
                  · omega
                  · simp only [h1]; omega
                  · intro hlt; exact absurd hfdv (not_le.mpr hlt)
                  · intro _; omega
                · -- balance factor -2: rotation at this node
                  have heqm2 : BalanceFactor (Avl.node sib fd fh s) = -2 := by
                    rw [hbfval]; omega
                  cases s with
                  | nil => exact absurd rfl hsnil
                  | node sl sd sh sr =>
                    obtain ⟨hsh, Hsl, Hsr⟩ := hh
                    obtain ⟨⟨hbs1, hbs2⟩, Bsl, Bsr⟩ := hb
                    obtain ⟨g1, g2⟩ := hgside
                    have hmaxo : max (h1 sl) (h1 sr) = o := by
                      have hexp : h1 (Avl.node sl sd sh sr) =
                        1 + max (h1 sl) (h1 sr) := rfl
                      omega
                    have ho' : 1 + max o (h1 sib) = o + 1 := by omega
                    rw [ho'] at hrest
                    have hrdata : rightData
                        (Avl.node sib fd fh (Avl.node sl sd sh sr)) = sd := rfl
                    by_cases hvd : sd ≤ v
                    · -- outer (right-right) case
                      have hsr : h1 sr = h1 sl + 1 := g2 hvd
                      have hrot := RR_ok fd sd sh fh sl sr sib (h1 sl)
                        Hsl Hsr Hsib Bsl Bsr Bsib hsr rfl (by omega)
                      have hh1rot : h1 (refreshL (RightRight
                          (Avl.node sib fd fh (Avl.node sl sd sh sr)))) = o + 1 := by
                        rw [hrot.2.2]; omega
                      cases fs with
                      | nil =>
                          have hreb : rebalance v []
                              (Avl.node sib fd fh (Avl.node sl sd sh sr)) =
                              ([], refreshL (RightRight
                                (Avl.node sib fd fh (Avl.node sl sd sh sr)))) := by
                            simp only [rebalance, if_pos heqm2, hrdata, if_pos hvd]
                          rw [hreb, unwind]
                          exact ⟨hrot.1, hrot.2.1⟩
                      | cons g rest =>
                          obtain ⟨gdir, gd, gh, gsib⟩ := g
                          obtain ⟨Hgsib, Bgsib, hgh, hgpre1, hgpre2, hgdL, hgdR,
                            hrest2⟩ := hrest
                          simp only at Hgsib Bgsib hgh hgpre1 hgpre2 hrest2
                          have hlen2 : rest.length ≤ n := by
                            simp only [List.length_cons] at hlen; omega
                          have hreb : rebalance v (⟨gdir, gd, gh, gsib⟩ :: rest)
                              (Avl.node sib fd fh (Avl.node sl sd sh sr)) =
                              (rest, plugF ⟨gdir, gd, gh, gsib⟩ (refreshL (RightRight
                                (Avl.node sib fd fh (Avl.node sl sd sh sr))))) := by
                            simp only [rebalance, if_pos heqm2, hrdata, if_pos hvd]
                          rw [hreb]
                          cases gdir with
                          | L =>
                              simp only [plugF]
                              refine IH rest hlen2 (1 + max (o + 1) (h1 gsib)) _
                                hrest2 ⟨?_, hrot.1, Hgsib⟩
                                ⟨⟨?_, ?_⟩, hrot.2.1, Bgsib⟩ (Or.inl ?_)
                              · rw [hh1rot]; exact hgh
                              · omega
                              · omega
                              · simp only [h1]; omega
                          | R =>
                              simp only [plugF]
                              refine IH rest hlen2 (1 + max (o + 1) (h1 gsib)) _
                                hrest2 ⟨?_, Hgsib, hrot.1⟩
                                ⟨⟨?_, ?_⟩, Bgsib, hrot.2.1⟩ (Or.inl ?_)
                              · rw [hh1rot, hgh]; push_cast; omega
                              · omega
                              · omega
                              · simp only [h1]; omega
                    · -- inner (right-left) case
                      have hvsd : v < sd := not_le.mp hvd
                      have hsl : h1 sl = h1 sr + 1 := g1 hvsd
                      have hslnil : sl ≠ .nil := by
                        intro hcon
                        rw [hcon] at hsl
                        simp [h1] at hsl
                      cases sl with
                      | nil => exact absurd rfl hslnil
                      | node sll sld slh slr =>
                        obtain ⟨hslh, Hsll, Hslr⟩ := Hsl
                        obtain ⟨⟨hbsl1, hbsl2⟩, Bsll, Bslr⟩ := Bsl
                        have hinner : max (h1 sll) (h1 slr) = h1 sr := by
                          have hexp : h1 (Avl.node sll sld slh slr) =
                            1 + max (h1 sll) (h1 slr) := rfl
                          omega
                        have hrot := RL_ok fd sd sld sh slh fh sll slr sr sib (h1 sr)
                          Hsll Hslr Hsr Hsib Bsll Bslr Bsr Bsib rfl (by omega) hinner
                          hbsl1 hbsl2
                        have hh1rot : h1 (refreshL (RightLeft
                            (Avl.node sib fd fh
                              (Avl.node (Avl.node sll sld slh slr) sd sh sr)))) =
                            o + 1 := by
                          rw [hrot.2.2]
                          have hexp : h1 (Avl.node sll sld slh slr) =
                            1 + max (h1 sll) (h1 slr) := rfl
                          omega
                        have hrdata2 : rightData
                            (Avl.node sib fd fh
                              (Avl.node (Avl.node sll sld slh slr) sd sh sr)) =
                            sd := rfl
                        cases fs with
                        | nil =>
                            have hreb : rebalance v []
                                (Avl.node sib fd fh
                                  (Avl.node (Avl.node sll sld slh slr) sd sh sr)) =
                                ([], refreshL (RightLeft
                                  (Avl.node sib fd fh
                                    (Avl.node (Avl.node sll sld slh slr)
                                      sd sh sr)))) := by
                              simp only [rebalance, if_pos heqm2, hrdata2,
                                if_neg (not_le.mpr hvsd)]
                            rw [hreb, unwind]
                            exact ⟨hrot.1, hrot.2.1⟩
                        | cons g rest =>
                            obtain ⟨gdir, gd, gh, gsib⟩ := g
                            obtain ⟨Hgsib, Bgsib, hgh, hgpre1, hgpre2, hgdL, hgdR,
                              hrest2⟩ := hrest
                            simp only at Hgsib Bgsib hgh hgpre1 hgpre2 hrest2
                            have hlen2 : rest.length ≤ n := by
                              simp only [List.length_cons] at hlen; omega
                            have hreb : rebalance v (⟨gdir, gd, gh, gsib⟩ :: rest)
                                (Avl.node sib fd fh
                                  (Avl.node (Avl.node sll sld slh slr) sd sh sr)) =
                                (rest, plugF ⟨gdir, gd, gh, gsib⟩ (refreshL (RightLeft
                                  (Avl.node sib fd fh
                                    (Avl.node (Avl.node sll sld slh slr)
                                      sd sh sr))))) := by
                              simp only [rebalance, if_pos heqm2, hrdata2,
                                if_neg (not_le.mpr hvsd)]
                            rw [hreb]
                            cases gdir with
                            | L =>
                                simp only [plugF]
                                refine IH rest hlen2 (1 + max (o + 1) (h1 gsib)) _
                                  hrest2 ⟨?_, hrot.1, Hgsib⟩
                                  ⟨⟨?_, ?_⟩, hrot.2.1, Bgsib⟩ (Or.inl ?_)
                                · rw [hh1rot]; exact hgh
                                · omega
                                · omega
                                · simp only [h1]; omega
                            | R =>
                                simp only [plugF]
                                refine IH rest hlen2 (1 + max (o + 1) (h1 gsib)) _
                                  hrest2 ⟨?_, Hgsib, hrot.1⟩
                                  ⟨⟨?_, ?_⟩, Bgsib, hrot.2.1⟩ (Or.inl ?_)
                                · rw [hh1rot, hgh]; push_cast; omega
                                · omega
                                · omega
                                · simp only [h1]; omega

theorem insertGo_hb (v : Int) :
    ∀ (t : Avl) (st : List Frame), t ≠ .nil → Honest t → BalancedR t →
      chainOK v st (h1 t) →
      Honest (insertGo v t st) ∧ BalancedR (insertGo v t st) := by
  intro t
  induction t with
  | nil => intro st hcon; exact absurd rfl hcon
  | node l d h r IHl IHr =>
      intro st _ hh hb hc
      obtain ⟨hsh, Hl, Hr⟩ := hh
      obtain ⟨⟨hb1, hb2⟩, Bl, Br⟩ := hb
      have hnil0 : h1 (Avl.nil) = 0 := rfl
      by_cases hv : v < d
      · cases l with
        | nil =>
            have hstep : insertGo v (.node .nil d h r) st =
                unwind v st (.node (Avl.node .nil v 0 .nil) d
                  (hmax (Avl.node .nil v 0 .nil) r) r) := by
              simp [insertGo, hv]
            rw [hstep]
            have hleaf1 : h1 (Avl.node .nil v 0 .nil) = 1 := rfl
            have hleafH : Honest (Avl.node .nil v 0 .nil) := by
              refine ⟨?_, trivial, trivial⟩
              simp [h1]
            have hleafB : BalancedR (Avl.node .nil v 0 .nil) :=
              ⟨⟨by omega, by omega⟩, trivial, trivial⟩
            have hrle : h1 r ≤ 1 := by omega
            have hs0H : Honest (.node (Avl.node .nil v 0 .nil) d
                (hmax (Avl.node .nil v 0 .nil) r) r) := by
              refine ⟨?_, hleafH, Hr⟩
              rw [hmax, childH_eq_h1 hleafH, childH_eq_h1 Hr, hleaf1]
              push_cast; omega
            have hs0B : BalancedR (.node (Avl.node .nil v 0 .nil) d
                (hmax (Avl.node .nil v 0 .nil) r) r) :=
              ⟨⟨by omega, by omega⟩, hleafB, Br⟩
            refine unwind_hb_fuel v st.length st le_rfl
              (h1 (Avl.node .nil d h r)) _ hc hs0H hs0B ?_
            have hr01 : h1 r = 0 ∨ h1 r = 1 := by omega
            rcases hr01 with hr0 | hr1
            · refine Or.inr ⟨?_, ?_, ?_⟩
              · simp only [h1]; omega
              · intro _; omega
              · intro hle; exact absurd hv (not_lt.mpr hle)
            · refine Or.inl ?_
              simp only [h1]; omega
        | node la lb lc ld =>
            have hstep : insertGo v (.node (.node la lb lc ld) d h r) st =
                insertGo v (.node la lb lc ld) (⟨Dir.L, d, h, r⟩ :: st) := by
              simp [insertGo, hv]
            rw [hstep]
            refine IHl (⟨Dir.L, d, h, r⟩ :: st) (by simp) Hl Bl
              ⟨Hr, Br, hsh, hb1, hb2, fun _ => hv, ?_, hc⟩
            intro hcon; simp at hcon
      · have hdv : d ≤ v := not_lt.mp hv
        cases r with
        | nil =>
            have hstep : insertGo v (.node l d h .nil) st =
                unwind v st (.node l d (hmax l (Avl.node .nil v 0 .nil))
                  (Avl.node .nil v 0 .nil)) := by
              simp [insertGo, hv]
            rw [hstep]
            have hleaf1 : h1 (Avl.node .nil v 0 .nil) = 1 := rfl
            have hleafH : Honest (Avl.node .nil v 0 .nil) := by
              refine ⟨?_, trivial, trivial⟩
              simp [h1]
            have hleafB : BalancedR (Avl.node .nil v 0 .nil) :=
              ⟨⟨by omega, by omega⟩, trivial, trivial⟩
            have hlle : h1 l ≤ 1 := by omega
            have hs0H : Honest (.node l d (hmax l (Avl.node .nil v 0 .nil))
                (Avl.node .nil v 0 .nil)) := by
              refine ⟨?_, Hl, hleafH⟩
              rw [hmax, childH_eq_h1 Hl, childH_eq_h1 hleafH, hleaf1]
              push_cast; omega
            have hs0B : BalancedR (.node l d (hmax l (Avl.node .nil v 0 .nil))
                (Avl.node .nil v 0 .nil)) :=
              ⟨⟨by omega, by omega⟩, Bl, hleafB⟩
            refine unwind_hb_fuel v st.length st le_rfl
              (h1 (Avl.node l d h .nil)) _ hc hs0H hs0B ?_
            have hl01 : h1 l = 0 ∨ h1 l = 1 := by omega
            rcases hl01 with hl0 | hl1
            · refine Or.inr ⟨?_, ?_, ?_⟩
              · simp only [h1]; omega
              · intro hlt; exact absurd hdv (not_le.mpr hlt)
              · intro _; omega
            · refine Or.inl ?_
              simp only [h1]; omega
        | node ra rb rc rd =>
            have hstep : insertGo v (.node l d h (.node ra rb rc rd)) st =
                insertGo v (.node ra rb rc rd) (⟨Dir.R, d, h, l⟩ :: st) := by
              simp [insertGo, hv]
            rw [hstep]
            refine IHr (⟨Dir.R, d, h, l⟩ :: st) (by simp) Hr Br
              ⟨Hl, Bl, ?_, ?_, ?_, ?_, fun _ => hdv, ?_⟩
            · rw [hsh, Nat.max_comm]
            · simp only; omega
            · simp only; omega
            · intro hcon; simp at hcon
            · have hq : h1 (Avl.node l d h (Avl.node ra rb rc rd)) =
                1 + max (h1 (Avl.node ra rb rc rd)) (h1 l) := by
                simp only [h1]; omega
              rw [← hq]; exact hc

theorem insert_hb (t : Avl) (v : Int) (ht : t ≠ .nil) (hh : Honest t)
    (hb : BalancedR t) : Honest (insert t v) ∧ BalancedR (insert t v) :=
  insertGo_hb v t [] ht hh hb trivial

theorem foldl_insert_hb :
    ∀ (xs : List Int) (t : Avl), t ≠ .nil → Honest t → BalancedR t →
      Honest (xs.foldl insert t) ∧ BalancedR (xs.foldl insert t) := by
  intro xs
  induction xs with
  | nil => intro t _ hh hb; exact ⟨hh, hb⟩
  | cons x xs IH =>
      intro t ht hh hb
      obtain ⟨hh', hb'⟩ := insert_hb t x ht hh hb
      simpa using IH (insert t x) (insert_ne_nil t x ht) hh' hb'

theorem BFok_of_honest_balanced :
    ∀ t : Avl, Honest t → BalancedR t → BFok t := by
  intro t
  induction t with
  | nil => intro _ _; trivial
  | node l d h r IHl IHr =>
      intro hh hb
      obtain ⟨hsh, Hl, Hr⟩ := hh
      obtain ⟨⟨hb1, hb2⟩, Bl, Br⟩ := hb
      refine ⟨?_, IHl Hl Bl, IHr Hr Br⟩
      have hbf : BalanceFactor (Avl.node l d h r) = (h1 l : Int) - (h1 r : Int) := by
        simp [BalanceFactor, childH_eq_h1 Hl, childH_eq_h1 Hr]
      rw [hbf]
      omega

end HeightBalance

section DeletePrint

open Avl

theorem length_inorder : ∀ t : Avl, (inorder t).length = size t := by
  intro t
  induction t with
  | nil => rfl
  | node l d h r IHl IHr => simp [inorder, size, IHl, IHr]; omega

theorem delete_avl_eq_size : ∀ t : Avl, t ≠ .nil → delete_avl t = (size t : Int) := by
  intro t
  induction t with
  | nil => intro hcon; exact absurd rfl hcon
  | node l d h r IHl IHr =>
      intro _
      cases l with
      | nil =>
          cases r with
          | nil => simp [delete_avl, size]
          | node ra rb rc rd =>
              show (0 : Int) + delete_avl (.node ra rb rc rd) + 1 =
                ((size (Avl.node .nil d h (.node ra rb rc rd)) : Nat) : Int)
              rw [IHr (by simp)]
              simp only [size]
              push_cast
              ring
      | node la lb lc ld =>
          cases r with
          | nil =>
              show delete_avl (.node la lb lc ld) + (0 : Int) + 1 =
                ((size (Avl.node (.node la lb lc ld) d h .nil) : Nat) : Int)
              rw [IHl (by simp)]
              simp only [size]
              push_cast
              ring
          | node ra rb rc rd =>
              show delete_avl (.node la lb lc ld) + delete_avl (.node ra rb rc rd) + 1 =
                ((size (Avl.node (.node la lb lc ld) d h (.node ra rb rc rd)) : Nat) : Int)
              rw [IHl (by simp), IHr (by simp)]
              simp only [size]
              push_cast
              ring

theorem print_avl_count :
    ∀ root : Avl, root ≠ .nil → ∀ parent : Avl, parent ≠ .nil →
      print_avl root parent = some (size root : Int) := by
  intro root
  induction root with
  | nil => intro hcon; exact absurd rfl hcon
  | node l d h r IHl IHr =>
      intro _ parent hp
      cases parent with
      | nil => exact absurd rfl hp
      | node pl pd ph pr =>
          cases l with
          | nil =>
              cases r with
              | nil => simp [print_avl, size]
              | node ra rb rc rd =>
                  show (print_avl (.node ra rb rc rd)
                      (Avl.node .nil d h (.node ra rb rc rd))).map
                      (fun cr => 1 + 0 + cr) =
                    some ((size (Avl.node .nil d h (.node ra rb rc rd)) : Nat) : Int)
                  rw [IHr (by simp) _ (by simp)]
                  simp only [Option.map_some', Option.some_bind, size,
                    Option.some.injEq]
                  push_cast
                  omega
          | node la lb lc ld =>
              cases r with
              | nil =>
                  show (print_avl (.node la lb lc ld)
                      (Avl.node (.node la lb lc ld) d h .nil)).bind
                      (fun cl => some (1 + cl + 0)) =
                    some ((size (Avl.node (.node la lb lc ld) d h .nil) : Nat) : Int)
                  rw [IHl (by simp) _ (by simp)]
                  simp only [Option.map_some', Option.some_bind, size,
                    Option.some.injEq]
                  push_cast
                  omega
              | node ra rb rc rd =>
                  show (print_avl (.node la lb lc ld)
                      (Avl.node (.node la lb lc ld) d h (.node ra rb rc rd))).bind
                      (fun cl => (print_avl (.node ra rb rc rd)
                        (Avl.node (.node la lb lc ld) d h (.node ra rb rc rd))).map
                        (fun cr => 1 + cl + cr)) =
                    some ((size (Avl.node (.node la lb lc ld) d h
                      (.node ra rb rc rd)) : Nat) : Int)
                  rw [IHl (by simp) _ (by simp), IHr (by simp) _ (by simp)]
                  simp only [Option.map_some', Option.some_bind, size,
                    Option.some.injEq]
                  push_cast
                  omega

theorem print_avl_nil_parent (root : Avl) (hr : root ≠ .nil) :
    print_avl root .nil = none := by
  cases root with
  | nil => exact absurd rfl hr
  | node l d h r => rfl

end DeletePrint

section Models

open Avl

theorem buildS_state : ∀ (rem : Nat) (a : List Int) (i : Nat) (t : Avl),
    (buildS a rem i t).2 = a := by
  intro rem
  induction rem with
  | zero => intro a i t; rfl
  | succ rem IH => intro a i t; simpa [buildS, readArr] using IH a (i + 1) _

theorem getD_append_cons :
    ∀ (pre : List Int) (y : Int) (ys : List Int),
      (pre ++ y :: ys).getD pre.length 0 = y := by
  intro pre
  induction pre with
  | nil => intro y ys; rfl
  | cons p ps IH => intro y ys; simpa using IH y ys

theorem buildS_run :
    ∀ (xs pre : List Int) (t : Avl),
      buildS (pre ++ xs) xs.length pre.length t = (xs.foldl insert t, pre ++ xs) := by
  intro xs
  induction xs with
  | nil => intro pre t; simp [buildS]
  | cons y ys IH =>
      intro pre t
      have hy : (pre ++ y :: ys).getD pre.length 0 = y := getD_append_cons pre y ys
      have hstep : buildS (pre ++ y :: ys) (ys.length + 1) pre.length t =
          buildS (pre ++ y :: ys) ys.length (pre.length + 1)
            (insert t ((pre ++ y :: ys).getD pre.length 0)) := rfl
      rw [List.length_cons, hstep, hy]
      have := IH (pre ++ [y]) (insert t y)
      simpa [List.append_assoc] using this

theorem generate_avlS_fst (arr : List Int) :
    (generate_avlS arr arr.length).1 = generate_avl (some arr) := by
  cases arr with
  | nil => rfl
  | cons x xs =>
      have hlen : (x :: xs).length = xs.length + 1 := rfl
      simp only [generate_avlS, hlen]
      rw [if_neg (by omega : ¬ xs.length + 1 = 0)]
      have hrun := buildS_run xs [x] (Avl.node .nil x 0 .nil)
      simp only [List.singleton_append, List.length_singleton] at hrun
      simp [readArr, hrun, generate_avl]

theorem insertGoA_all_ok (v : Int) :
    ∀ (t : Avl) (st : List Frame),
      insertGoA v t st [] = some (insertGo v t st, []) := by
  intro t
  induction t with
  | nil => intro st; rfl
  | node l d h r IHl IHr =>
      intro st
      by_cases hv : v < d
      · cases l with
        | nil => simp [insertGoA, insertGo, takeAlloc, hv]
        | node la lb lc ld =>
            simp only [insertGoA, insertGo, takeAlloc, if_pos hv]
            exact IHl (⟨Dir.L, d, h, r⟩ :: st)
      · cases r with
        | nil => simp [insertGoA, insertGo, takeAlloc, hv]
        | node ra rb rc rd =>
            simp only [insertGoA, insertGo, takeAlloc, if_neg hv]
            exact IHr (⟨Dir.R, d, h, l⟩ :: st)

theorem buildA_all_ok : ∀ (xs : List Int) (t : Avl),
    buildA xs t [] = some (xs.foldl insert t) := by
  intro xs
  induction xs with
  | nil => intro t; rfl
  | cons x xs IH =>
      intro t
      simp [buildA, insertGoA_all_ok x t [], IH (insertGo x t [])]
      rfl

theorem generate_avlA_all_ok (inp : Option (List Int)) :
    generate_avlA inp [] =
      (match generate_avl inp with
        | none => GenRes.invalid
        | some t => GenRes.ok t) := by
  match inp with
  | none => rfl
  | some [] => rfl
  | some (x :: xs) =>
      simp [generate_avlA, takeAlloc, buildA_all_ok xs (Avl.node .nil x 0 .nil),
        generate_avl]

end Models

section Claims

open Avl

/-- Claim C1: for every non-empty integer sequence, `generate_avl` returns a
tree whose inorder traversal is exactly the input sorted ascending (the
ties-go-right rule makes the sort stable; for integer values this is the
stable `insertionSort` with the `≤` relation). -/
theorem claim_C1 (x : Int) (xs : List Int) (t : Avl)
    (hgen : generate_avl (some (x :: xs)) = some t) :
    inorder t = List.insertionSort (fun a b => a ≤ b) (x :: xs) := by
  obtain ⟨t', hgen', hne, hsort, hperm⟩ := generate_ok x xs
  have heq : t' = t := Option.some.inj (hgen'.symm.trans hgen)
  subst heq
  refine List.eq_of_perm_of_sorted ?_ hsort (List.sorted_insertionSort _ _)
  exact hperm.trans (List.perm_insertionSort _ _).symm

theorem claim_C1_witness :
    inorder (Avl.node (Avl.node .nil 10 0 .nil) 20 1 (Avl.node .nil 30 0 .nil)) =
      List.insertionSort (fun a b => a ≤ b) [10, 20, 30] :=
  claim_C1 10 [20, 30] _ (by decide)

/-- Claim C2: after the insertion of each input value completes (each prefix
of the build), and in particular for the finished tree, every node's
`BalanceFactor` is in `{-1, 0, 1}`. -/
theorem claim_C2 (x : Int) (xs : List Int) (i : Nat) :
    BFok ((xs.take i).foldl insert (Avl.node .nil x 0 .nil)) ∧
      ∀ t : Avl, generate_avl (some (x :: xs)) = some t → BFok t := by
  have hbh : Honest (Avl.node .nil x 0 .nil) := ⟨by simp [h1], trivial, trivial⟩
  have hbb : BalancedR (Avl.node .nil x 0 .nil) :=
    ⟨⟨Nat.le_succ _, Nat.le_succ _⟩, trivial, trivial⟩
  constructor
  · obtain ⟨hH, hB⟩ := foldl_insert_hb (xs.take i) _ (by simp) hbh hbb
    exact BFok_of_honest_balanced _ hH hB
  · intro t hgen
    have hg2 : (some (xs.foldl insert (Avl.node .nil x 0 .nil)) : Option Avl) =
        some t := hgen
    obtain ⟨hH, hB⟩ := foldl_insert_hb xs _ (by simp) hbh hbb
    rw [← Option.some.inj hg2]
    exact BFok_of_honest_balanced _ hH hB

theorem claim_C2_witness :
    BFok (Avl.node (Avl.node .nil 10 0 .nil) 20 1 (Avl.node .nil 30 0 .nil)) :=
  (claim_C2 10 [20, 30] 0).2 _ (by decide)

/-- Claim C3, counterexample: on input `[10, 10, 10]` the build rotates an
equal value into a left subtree, so the produced tree has a left child whose
value equals the root's value — the claimed strict `<` ordering on left
subtrees is violated. -/
theorem claim_C3_counterexample :
    generate_avl (some [10, 10, 10]) =
      some (Avl.node (Avl.node .nil 10 0 .nil) 10 1 (Avl.node .nil 10 0 .nil)) ∧
    ¬ StrictBST (Avl.node (Avl.node .nil 10 0 .nil) 10 1 (Avl.node .nil 10 0 .nil)) := by
  decide

/-- Claim C3, amended: in every tree produced by `generate_avl` (after each
completed insertion and at the end of the build), for every node all values
in its left subtree are less than or equal to the node's value (strictness
is lost when rotations move equal values leftward), and all values in its
right subtree are greater than or equal to the node's value. -/
theorem claim_C3 (x : Int) (xs : List Int) (i : Nat) :
    WeakBST ((xs.take i).foldl insert (Avl.node .nil x 0 .nil)) ∧
      ∀ t : Avl, generate_avl (some (x :: xs)) = some t → WeakBST t := by
  constructor
  · obtain ⟨hne, hsort, _⟩ :=
      foldl_insert_ok (xs.take i) (Avl.node .nil x 0 .nil) (by simp) (by simp [inorder])
    exact (WeakBST_iff_sorted _).mpr hsort
  · intro t hgen
    obtain ⟨t', hgen', hne, hsort, hperm⟩ := generate_ok x xs
    have heq : t' = t := Option.some.inj (hgen'.symm.trans hgen)
    rw [← heq]
    exact (WeakBST_iff_sorted _).mpr hsort

theorem claim_C3_witness :
    WeakBST (Avl.node (Avl.node .nil 10 0 .nil) 20 1 (Avl.node .nil 30 0 .nil)) :=
  (claim_C3 10 [20, 30] 0).2 _ (by decide)

/-- Claim C4: after `generate_avl` completes on a valid non-empty input,
every node's stored `height` field equals the recursively defined height of
its subtree (`Honest`, stated via `rheight`: a childless node has height 0,
otherwise the max over present children of `1 +` their recursive height). -/
theorem claim_C4 (x : Int) (xs : List Int) (t : Avl)
    (hgen : generate_avl (some (x :: xs)) = some t) : Honest t := by
  have hbh : Honest (Avl.node .nil x 0 .nil) := ⟨by simp [h1], trivial, trivial⟩
  have hbb : BalancedR (Avl.node .nil x 0 .nil) :=
    ⟨⟨Nat.le_succ _, Nat.le_succ _⟩, trivial, trivial⟩
  have hg2 : (some (xs.foldl insert (Avl.node .nil x 0 .nil)) : Option Avl) =
      some t := hgen
  rw [← Option.some.inj hg2]
  exact (foldl_insert_hb xs _ (by simp) hbh hbb).1

theorem claim_C4_witness :
    Honest (Avl.node (Avl.node .nil 10 0 .nil) 20 1 (Avl.node .nil 30 0 .nil)) :=
  claim_C4 10 [20, 30] _ (by decide)

/-- Claim C5: the inputs `[10, 20, 30]` (right-right case) and `[30, 10, 20]`
(left-right case) both produce the identical tree: root 20 with stored
height 1, left child 10 and right child 30 with stored height 0. -/
theorem claim_C5 :
    generate_avl (some [10, 20, 30]) =
      some (Avl.node (Avl.node .nil 10 0 .nil) 20 1 (Avl.node .nil 30 0 .nil)) ∧
    generate_avl (some [30, 10, 20]) =
      some (Avl.node (Avl.node .nil 10 0 .nil) 20 1 (Avl.node .nil 30 0 .nil)) := by
  decide

/-- Claim C6: `generate_avl` on an absent array or length zero returns the
NULL/error result after the `Invalid array.` log, performing no insertion
work (in the allocation-instrumented model the result is `invalid` no
matter what the allocator would do). -/
theorem claim_C6 :
    generate_avl none = none ∧ generate_avl (some []) = none ∧
      (∀ al : List Bool, generate_avlA none al = GenRes.invalid) ∧
      (∀ al : List Bool, generate_avlA (some []) al = GenRes.invalid) :=
  ⟨rfl, rfl, fun _ => rfl, fun _ => rfl⟩

/-- Claim C7: `delete_avl` on a present root visits every node in postorder
and returns the node count — in particular `n` for a tree built from `n`
values — and returns the `-1` error on an absent root. -/
theorem claim_C7 :
    (∀ t : Avl, t ≠ .nil → delete_avl t = (size t : Int)) ∧
      (∀ (arr : List Int) (t : Avl), generate_avl (some arr) = some t →
        delete_avl t = (arr.length : Int)) ∧
      delete_avl .nil = -1 := by
  refine ⟨delete_avl_eq_size, ?_, rfl⟩
  intro arr t hgen
  cases arr with
  | nil => simp [generate_avl] at hgen
  | cons x xs =>
      obtain ⟨t', hgen', hne, _, hperm⟩ := generate_ok x xs
      have heq : t' = t := Option.some.inj (hgen'.symm.trans hgen)
      subst heq
      rw [delete_avl_eq_size t' hne]
      have hlen : (inorder t').length = (x :: xs).length := hperm.length_eq
      rw [length_inorder] at hlen
      exact_mod_cast hlen

theorem claim_C7_witness :
    delete_avl (Avl.node (Avl.node .nil 10 0 .nil) 20 1 (Avl.node .nil 30 0 .nil)) =
      3 := by
  simpa using claim_C7.2.1 [10, 20, 30]
    (Avl.node (Avl.node .nil 10 0 .nil) 20 1 (Avl.node .nil 30 0 .nil)) (by decide)

/-- Claim C8, counterexample: when the head-handle `calloc` fails (second
allocation), `generate_avl` does not surface an allocation error — it
dereferences the NULL handle (`*head = root`), i.e. the run is a crash,
not the checked-failure return. -/
theorem claim_C8_counterexample :
    generate_avlA (some [10, 20]) [true, false] = GenRes.crash ∧
      GenRes.crash ≠ GenRes.callocFail := by
  decide

/-- Claim C8, amended: only the root node's allocation failure is detected
and surfaced as an error return (`calloc failed.`); a failure of the head
handle's allocation, or of any per-insertion allocation — the next
allocation an insertion step consumes is the new-leaf `calloc`
(`avl.c:66`/`avl.c:93`) when the child slot is absent and the path-entry
`malloc` (`avl.c:84`/`avl.c:108`) otherwise, and its failure makes the
step a NULL dereference (`none`), which the build then reports as a crash,
never as a surfaced error. -/
theorem claim_C8 :
    (∀ (x : Int) (xs : List Int) (bs : List Bool),
      generate_avlA (some (x :: xs)) (false :: bs) = GenRes.callocFail) ∧
    (∀ (x : Int) (xs : List Int) (bs : List Bool),
      generate_avlA (some (x :: xs)) (true :: false :: bs) = GenRes.crash) ∧
    (∀ (v : Int) (t : Avl) (st : Stack) (bs : List Bool), t ≠ .nil →
      insertGoA v t st (false :: bs) = none) ∧
    (∀ (x : Int) (xs : List Int) (bs : List Bool),
      buildA xs (Avl.node .nil x 0 .nil) bs = none →
        generate_avlA (some (x :: xs)) (true :: true :: bs) = GenRes.crash) := by
  refine ⟨fun _ _ _ => rfl, fun _ _ _ => rfl, ?_, ?_⟩
  · intro v t st bs ht
    cases t with
    | nil => exact absurd rfl ht
    | node l d h r =>
        by_cases hv : v < d
        · cases l <;> simp [insertGoA, takeAlloc, hv]
        · cases r <;> simp [insertGoA, takeAlloc, hv]
  · intro x xs bs hbuild
    simp [generate_avlA, takeAlloc, hbuild]

theorem claim_C8_witness :
    insertGoA 20 (Avl.node .nil 10 0 .nil) [] [false] = none ∧
      generate_avlA (some [10, 20]) [true, true, false] = GenRes.crash ∧
      generate_avlA (some [10, 20, 30]) [true, true, true, false] = GenRes.crash := by
  refine ⟨claim_C8.2.2.1 20 (Avl.node .nil 10 0 .nil) [] [] (by simp), ?_, ?_⟩
  · exact claim_C8.2.2.2 10 [20] [false] (by decide)
  · exact claim_C8.2.2.2 10 [20, 30] [true, false] (by decide)

/-- Claim C9: `print_avl` reads the parent argument's value unconditionally
for a present root — with an absent parent the initial call is a NULL
dereference (`none` in the model), so a present sentinel parent is a
precondition; under that precondition the root error branch is unreachable
and the call returns the visited-node count. -/
theorem claim_C9 (root : Avl) (hr : root ≠ .nil) :
    print_avl root .nil = none ∧
      ∀ parent : Avl, parent ≠ .nil → print_avl root parent = some (size root : Int) :=
  ⟨print_avl_nil_parent root hr, fun parent hp => print_avl_count root hr parent hp⟩

theorem claim_C9_witness :
    print_avl (Avl.node .nil 5 0 .nil) .nil = none ∧
      print_avl (Avl.node .nil 5 0 .nil) (Avl.node .nil 9 0 .nil) = some 1 := by
  have h := claim_C9 (Avl.node .nil 5 0 .nil) (by simp)
  exact ⟨h.1, by simpa using h.2 (Avl.node .nil 9 0 .nil) (by simp)⟩

/-- Claim C10: `generate_avl` never modifies its input array: in the
state-threaded rendering (where every `arr[i]` access is an explicit
operation on the array state) the array after the call equals the array
before it, for every input and length; moreover the state-threaded build
computes the same tree as `generate_avl`. -/
theorem claim_C10 :
    (∀ (arr : List Int) (len : Nat), (generate_avlS arr len).2 = arr) ∧
      ∀ arr : List Int, (generate_avlS arr arr.length).1 = generate_avl (some arr) := by
  constructor
  · intro arr len
    unfold generate_avlS
    split
    · rfl
    · simpa [readArr] using buildS_state (len - 1) arr 1 _
  · exact generate_avlS_fst

end Claims

end DS
